import Mathlib

/-!
Verification of the geodiff changeset codec (reader/writer of the binary
changeset format) against its specification.

The value model, the operation-code enum and the `Value` accessors and copy
constructor are embedded from `src/geodiff/src/geodiffchangeset.h`, which
defines them inline.  The bodies of the reader (`nextEntry`, `readVarint`,
`readRowValues`, ...) and the writer (`beginTable`, `writeEntry`,
`writeVarint`, ...) are declared in that header but their translation unit is
not part of the source tree; those operations are modelled from the
specification's wire-format description (spec sections 4.2 and 4.3).

Bytes are represented as natural numbers (well-formed inputs keep them below
256); byte buffers are lists.  Machine integers are `Int`/`Nat` with explicit
range conditions; the 8-byte IEEE-754 double payload is carried as its raw
64-bit big-endian integer, which is exactly what the codec transports.
-/

deriving instance DecidableEq for Except

/-- Tagged variant for a single column cell, embedded from `struct Value` in
`geodiffchangeset.h`: the union payload plus the `Type` tag becomes a sum
type.  `int` carries the `int64_t` payload, `double` carries the raw 64-bit
IEEE-754 bit pattern (the codec only ever moves those 8 bytes), `text` and
`blob` carry the owned byte buffer. -/
inductive Value where
  | undefined : Value
  | null : Value
  | int (v : Int) : Value
  | double (bits : Nat) : Value
  | text (bytes : List Nat) : Value
  | blob (bytes : List Nat) : Value
deriving DecidableEq

/-- Numeric tag of a `Value`, mirroring `Value::Type` of the header:
TypeUndefined = 0, TypeInt = 1, TypeDouble = 2, TypeText = 3, TypeBlob = 4,
TypeNull = 5. -/
def Value.type : Value → Nat
  | .undefined => 0
  | .int _ => 1
  | .double _ => 2
  | .text _ => 3
  | .blob _ => 4
  | .null => 5

/-- Accessor `Value::getInt`, which asserts `mType == TypeInt` and returns
`mVal.num_i`; the assertion is modelled by returning `none` when it would
fire. -/
def Value.getInt : Value → Option Int
  | .int v => some v
  | _ => none

/-- Accessor `Value::getDouble`, which asserts `mType == TypeDouble` and
returns `mVal.num_f` (carried here as the raw bit pattern). -/
def Value.getDouble : Value → Option Nat
  | .double b => some b
  | _ => none

/-- Accessor `Value::getString`, which asserts
`mType == TypeText || mType == TypeBlob` and returns the owned buffer. -/
def Value.getString : Value → Option (List Nat)
  | .text s => some s
  | .blob s => some s
  | _ => none

/-- Deep copy of a byte buffer, modelling `new std::string( *mVal.str )` in
the copy constructor: the buffer is rebuilt element by element into fresh
storage. -/
def copyBytes : List Nat → List Nat
  | [] => []
  | b :: bs => b :: copyBytes bs

/-- Copy constructor `Value::Value(const Value &other)`: the tag and payload
are copied, and for text/blob the byte buffer is deep-copied via
`copyBytes`. -/
def Value.copy : Value → Value
  | .undefined => .undefined
  | .null => .null
  | .int v => .int v
  | .double b => .double b
  | .text s => .text (copyBytes s)
  | .blob s => .blob (copyBytes s)

/-- True for every tag except undefined ("defined" in the sense of the spec:
the column is carried by the change; null counts as defined). -/
def Value.isDefined : Value → Bool
  | .undefined => false
  | _ => true

/-- Table metadata, embedded from `struct ChangesetTable`: the table name (as
its UTF-8 bytes, without terminator) and one primary-key flag per column. -/
structure ChangesetTable where
  name : List Nat
  primaryKeys : List Bool
deriving DecidableEq

/-- Operation kind of a changeset entry, from `ChangesetEntry::OperationType`. -/
inductive OperationType where
  | OpInsert : OperationType
  | OpUpdate : OperationType
  | OpDelete : OperationType
deriving DecidableEq

/-- Numeric operation codes of the header enum: `OpInsert = 18`
(SQLITE_INSERT), `OpUpdate = 23` (SQLITE_UPDATE), `OpDelete = 9`
(SQLITE_DELETE). -/
def OperationType.code : OperationType → Nat
  | .OpInsert => 18
  | .OpUpdate => 23
  | .OpDelete => 9

/-- A single change, embedded from `struct ChangesetEntry`; `table` models
the `ChangesetTable *table = nullptr` weak reference. -/
structure ChangesetEntry where
  op : OperationType
  oldValues : List Value
  newValues : List Value
  table : Option ChangesetTable := none
deriving DecidableEq

/-- Concatenation of the images of a list-producing function; used for the
writer's output, which is the concatenation of the records it emits. -/
def concatMap (f : α → List β) : List α → List β
  | [] => []
  | x :: xs => f x ++ concatMap f xs

/-- Big-endian value of a byte list (most significant byte first). -/
def beToNat (l : List Nat) : Nat := l.foldl (fun a b => a * 256 + b) 0

/-- The `k` big-endian bytes of `x` (modulo `256 ^ k`). -/
def beBytes : Nat → Nat → List Nat
  | 0, _ => []
  | k + 1, x => beBytes k (x / 256) ++ [x % 256]

/-- Two's-complement 64-bit image of an `int64_t` value. -/
def int64ToNat (v : Int) : Nat := (v % (2 ^ 64 : Int)).toNat

/-- Reinterpret a 64-bit unsigned value as a two's-complement `int64_t`. -/
def int64OfNat (x : Nat) : Int :=
  if x < 2 ^ 63 then (x : Int) else (x : Int) - 2 ^ 64

/-- Little-endian base-128 digits of `n` (least significant first), with
explicit recursion fuel; `fuel ≥ n` always suffices. -/
def varintLEFuel : Nat → Nat → List Nat
  | 0, n => [n]
  | fuel + 1, n => if n < 128 then [n] else n % 128 :: varintLEFuel fuel (n / 128)

/-- Little-endian base-128 digits of `n`, least significant first; this is
the minimal digit string (no most-significant zero except for `n = 0`). -/
def varintLE (n : Nat) : List Nat := varintLEFuel n n

/-- Big-endian base-128 digits of `n`, most significant first. -/
def varintBE (n : Nat) : List Nat := (varintLE n).reverse

/-- Set the MSB continuation bit on every byte except the last. -/
def contEnc : List Nat → List Nat
  | [] => []
  | [d] => [d]
  | d :: ds => (d + 128) :: contEnc ds

/-- Modelled from the spec: `GeoDiffChangesetWriter::writeVarint` (the
translation unit of `geodiffchangeset.h` is not in the source tree).  The
spec, section 4.2: unsigned base-128, big-endian, MSB continuation, minimal
form. -/
def writeVarint (n : Nat) : List Nat := contEnc (varintBE n)

/-- Offset-carrying parse failure, modelling the reader error of spec
section 7: a short message plus the byte offset. -/
structure ParseErr where
  message : String
  offset : Nat
deriving DecidableEq

/-- Cursor of the reader: the bytes not yet consumed plus the absolute
offset of the next byte (the header keeps a whole buffer and an `offset`;
the pair (remaining bytes, offset) is the same information). -/
structure RState where
  rest : List Nat
  off : Nat
deriving DecidableEq

/-- Modelled from the spec: `GeoDiffChangesetReader::readByte`.  Yields the
next byte and advances the cursor; running out of bytes inside a record is a
truncation error. -/
def readByte (s : RState) : Except ParseErr (Nat × RState) :=
  match s.rest with
  | [] => .error ⟨"truncated: unexpected end of buffer", s.off⟩
  | b :: bs => .ok (b, ⟨bs, s.off + 1⟩)

/-- Modelled from the spec: the loop of `GeoDiffChangesetReader::readVarint`
with the remaining byte allowance as fuel (spec section 4.2: at most 5
bytes; a continuation extending past the fifth byte is a parse error). -/
def readVarintAux : Nat → Nat → RState → Except ParseErr (Nat × RState)
  | 0, _, s => .error ⟨"varint too long", s.off⟩
  | fuel + 1, acc, s =>
    match readByte s with
    | .error e => .error e
    | .ok (b, s1) =>
      if b < 128 then .ok (acc * 128 + b, s1)
      else readVarintAux fuel (acc * 128 + (b - 128)) s1

/-- Modelled from the spec: `GeoDiffChangesetReader::readVarint`. -/
def readVarint (s : RState) : Except ParseErr (Nat × RState) :=
  readVarintAux 5 0 s

/-- Read exactly `n` raw bytes. -/
def readBytesN : Nat → RState → Except ParseErr (List Nat × RState)
  | 0, s => .ok ([], s)
  | n + 1, s =>
    match readByte s with
    | .error e => .error e
    | .ok (b, s1) =>
      match readBytesN n s1 with
      | .error e => .error e
      | .ok (bs, s2) => .ok (b :: bs, s2)

/-- Recursion worker of `readNullTerminatedString`, walking the remaining
bytes up to the NUL terminator. -/
def readNTSAux : List Nat → Nat → Except ParseErr (List Nat × RState)
  | [], off => .error ⟨"truncated: unterminated string", off⟩
  | b :: bs, off =>
    if b = 0 then .ok ([], ⟨bs, off + 1⟩)
    else
      match readNTSAux bs (off + 1) with
      | .error e => .error e
      | .ok (nm, s1) => .ok (b :: nm, s1)

/-- Modelled from the spec:
`GeoDiffChangesetReader::readNullTerminatedString` — the table name is the
byte run up to (and not including) the NUL terminator. -/
def readNullTerminatedString (s : RState) : Except ParseErr (List Nat × RState) :=
  readNTSAux s.rest s.off

/-- Modelled from the spec: one cell of a row-values payload (spec section
4.2).  Tag byte 0 = undefined, 1 = integer (8 bytes big-endian
two's-complement), 2 = double (8 bytes big-endian IEEE-754), 3 = text and
4 = blob (varint length plus raw bytes), 5 = null; any other tag byte is a
parse error reported at the tag byte's offset. -/
def readValue (s : RState) : Except ParseErr (Value × RState) :=
  match readByte s with
  | .error e => .error e
  | .ok (t, s1) =>
    if t = 0 then .ok (.undefined, s1)
    else if t = 1 then
      match readBytesN 8 s1 with
      | .error e => .error e
      | .ok (bs, s2) => .ok (.int (int64OfNat (beToNat bs)), s2)
    else if t = 2 then
      match readBytesN 8 s1 with
      | .error e => .error e
      | .ok (bs, s2) => .ok (.double (beToNat bs), s2)
    else if t = 3 then
      match readVarint s1 with
      | .error e => .error e
      | .ok (len, s2) =>
        match readBytesN len s2 with
        | .error e => .error e
        | .ok (bs, s3) => .ok (.text bs, s3)
    else if t = 4 then
      match readVarint s1 with
      | .error e => .error e
      | .ok (len, s2) =>
        match readBytesN len s2 with
        | .error e => .error e
        | .ok (bs, s3) => .ok (.blob bs, s3)
    else if t = 5 then .ok (.null, s1)
    else .error ⟨"unknown value tag", s.off⟩

/-- Modelled from the spec: `GeoDiffChangesetReader::readRowValues` — one
row-values payload is one cell per column of the current table. -/
def readRowValues : Nat → RState → Except ParseErr (List Value × RState)
  | 0, s => .ok ([], s)
  | n + 1, s =>
    match readValue s with
    | .error e => .error e
    | .ok (v, s1) =>
      match readRowValues n s1 with
      | .error e => .error e
      | .ok (vs, s2) => .ok (v :: vs, s2)

/-- Modelled from the spec: `GeoDiffChangesetReader::readTableRecord`, after
the 'T' marker byte: a varint column count, one primary-key flag byte per
column, then the NUL-terminated table name. -/
def readTableRecord (s : RState) : Except ParseErr (ChangesetTable × RState) :=
  match readVarint s with
  | .error e => .error e
  | .ok (nCols, s1) =>
    match readBytesN nCols s1 with
    | .error e => .error e
    | .ok (pkBytes, s2) =>
      match readNullTerminatedString s2 with
      | .error e => .error e
      | .ok (nm, s3) => .ok (⟨nm, pkBytes.map (fun b => b != 0)⟩, s3)

/-- Classify a record byte as an operation, mirroring the row-record marker
bytes of spec section 4.2 against the header's `OperationType` codes. -/
def opOfByte (b : Nat) : Option OperationType :=
  if b = 18 then some .OpInsert
  else if b = 23 then some .OpUpdate
  else if b = 9 then some .OpDelete
  else none

/-- Reader state: the cursor plus the sticky current table, mirroring the
`buffer`/`offset`/`currentTable` members of `GeoDiffChangesetReader`
(`currentTable = none` is the AwaitingAnyRecord state of spec section
4.2). -/
structure Reader where
  st : RState
  currentTable : Option ChangesetTable
deriving DecidableEq

/-- Modelled from the spec: the record loop of
`GeoDiffChangesetReader::nextEntry`, with fuel bounding the number of table
records skipped in one call (each consumes at least one byte, so
`rest.length + 1` always suffices).  End of buffer at a record boundary is
clean termination; a table record updates the current table and continues; a
row record before any table record is a parse error; any other leading byte
is a parse error. -/
def nextEntryAux : Nat → Reader → Except ParseErr (Option (ChangesetEntry × Reader))
  | 0, r => .error ⟨"internal: out of fuel", r.st.off⟩
  | fuel + 1, r =>
    match r.st.rest with
    | [] => .ok none
    | _ :: _ =>
      match readByte r.st with
      | .error e => .error e
      | .ok (b, s1) =>
        if b = 84 then
          match readTableRecord s1 with
          | .error e => .error e
          | .ok (tbl, s2) => nextEntryAux fuel ⟨s2, some tbl⟩
        else
          match opOfByte b with
          | none => .error ⟨"invalid record type", r.st.off⟩
          | some op =>
            match r.currentTable with
            | none => .error ⟨"row record before first table", r.st.off⟩
            | some tbl =>
              match readByte s1 with
              | .error e => .error e
              | .ok (_, s2) =>
                match op with
                | .OpInsert =>
                  match readRowValues tbl.primaryKeys.length s2 with
                  | .error e => .error e
                  | .ok (vs, s3) =>
                    .ok (some (⟨.OpInsert, [], vs, some tbl⟩, ⟨s3, some tbl⟩))
                | .OpDelete =>
                  match readRowValues tbl.primaryKeys.length s2 with
                  | .error e => .error e
                  | .ok (vs, s3) =>
                    .ok (some (⟨.OpDelete, vs, [], some tbl⟩, ⟨s3, some tbl⟩))
                | .OpUpdate =>
                  match readRowValues tbl.primaryKeys.length s2 with
                  | .error e => .error e
                  | .ok (olds, s3) =>
                    match readRowValues tbl.primaryKeys.length s3 with
                    | .error e => .error e
                    | .ok (news, s4) =>
                      .ok (some (⟨.OpUpdate, olds, news, some tbl⟩, ⟨s4, some tbl⟩))

/-- Modelled from the spec: `GeoDiffChangesetReader::nextEntry`.  Returns
`ok none` at clean end of stream, `ok (some (entry, reader))` for the next
row record, and a `ParseErr` (with no partial entry) on malformed input. -/
def nextEntry (r : Reader) : Except ParseErr (Option (ChangesetEntry × Reader)) :=
  nextEntryAux (r.st.rest.length + 1) r

/-- Modelled from the spec: one cell of a row-values payload as emitted by
the writer (spec sections 4.2 / 4.3): a tag byte followed by the payload
bytes; numeric payloads are 8 bytes big-endian, text/blob payloads are a
varint length plus the raw bytes. -/
def writeValue : Value → List Nat
  | .undefined => [0]
  | .null => [5]
  | .int v => 1 :: beBytes 8 (int64ToNat v)
  | .double b => 2 :: beBytes 8 b
  | .text s => 3 :: (writeVarint s.length ++ s)
  | .blob s => 4 :: (writeVarint s.length ++ s)

/-- Modelled from the spec: `GeoDiffChangesetWriter::writeRowValues`. -/
def writeRowValues (vs : List Value) : List Nat := concatMap writeValue vs

/-- Modelled from the spec: `GeoDiffChangesetWriter::beginTable` — the table
record it emits: marker byte 'T' (0x54), varint column count, one 0/1 byte
per primary-key flag, NUL-terminated name. -/
def beginTable (t : ChangesetTable) : List Nat :=
  84 :: (writeVarint t.primaryKeys.length
    ++ t.primaryKeys.map (fun pk => if pk then 1 else 0)
    ++ t.name ++ [0])

/-- Modelled from the spec: `GeoDiffChangesetWriter::writeEntry` — the row
record it emits: the operation byte, the indeterminate "indirect" byte
written as 0, then the new values (insert), the old values (delete), or old
then new (update). -/
def writeEntry (e : ChangesetEntry) : List Nat :=
  e.op.code :: 0 ::
    (match e.op with
     | .OpInsert => writeRowValues e.newValues
     | .OpDelete => writeRowValues e.oldValues
     | .OpUpdate => writeRowValues e.oldValues ++ writeRowValues e.newValues)

/-- Byte stream of a whole changeset: for each table, its table record
followed by its row records (the writer call sequence `beginTable` then
`writeEntry` for each change, spec section 6.2). -/
def writeChangeset (data : List (ChangesetTable × List ChangesetEntry)) : List Nat :=
  concatMap (fun p => beginTable p.1 ++ concatMap writeEntry p.2) data

/-- Read all entries of a buffer by iterating `nextEntry` until it reports
the clean end of the stream; fuel bounds the number of entries, so
`buf.length + 1` always suffices. -/
def readAllAux : Nat → Reader → Except ParseErr (List ChangesetEntry)
  | 0, r => .error ⟨"internal: out of fuel", r.st.off⟩
  | fuel + 1, r =>
    match nextEntry r with
    | .error e => .error e
    | .ok none => .ok []
    | .ok (some (e, r1)) =>
      match readAllAux fuel r1 with
      | .error err => .error err
      | .ok es => .ok (e :: es)

/-- Open a buffer with a fresh reader (no current table, offset 0) and read
every entry. -/
def readChangeset (buf : List Nat) : Except ParseErr (List ChangesetEntry) :=
  readAllAux (buf.length + 1) ⟨⟨buf, 0⟩, none⟩

/-- Well-formedness of a `Value` for the 32-bit-length, 64-bit-payload wire
format: the integer payload fits `int64_t`, the double bit pattern fits 64
bits, buffer bytes are bytes and buffer lengths are in the varint domain of
spec section 4.2. -/
def valueWfb : Value → Bool
  | .undefined => true
  | .null => true
  | .int v => decide (-(2 ^ 63) ≤ v) && decide (v < 2 ^ 63)
  | .double b => decide (b < 2 ^ 64)
  | .text s => s.all (fun b => decide (b < 256)) && decide (s.length < 2 ^ 31)
  | .blob s => s.all (fun b => decide (b < 256)) && decide (s.length < 2 ^ 31)

/-- Well-formedness of table metadata per spec section 3.2: a non-empty
NUL-free byte name, at least one primary-key column, and a column count in
the varint domain. -/
def tableWfb (t : ChangesetTable) : Bool :=
  !t.name.isEmpty && t.name.all (fun b => decide (0 < b) && decide (b < 256))
    && t.primaryKeys.any (fun x => x) && decide (t.primaryKeys.length < 2 ^ 31)

/-- Per-operation invariants of spec section 3.3 for one entry against its
table: inserts carry only new values (one defined value per column), deletes
only old values, updates carry both arrays at the column count with every
primary-key column's old slot defined and, for non-key columns, the old and
new slots defined together. -/
def entryWfb (t : ChangesetTable) (e : ChangesetEntry) : Bool :=
  match e.op with
  | .OpInsert =>
    e.oldValues.isEmpty && decide (e.newValues.length = t.primaryKeys.length)
      && e.newValues.all (fun v => v.isDefined && valueWfb v)
  | .OpDelete =>
    e.newValues.isEmpty && decide (e.oldValues.length = t.primaryKeys.length)
      && e.oldValues.all (fun v => v.isDefined && valueWfb v)
  | .OpUpdate =>
    decide (e.oldValues.length = t.primaryKeys.length)
      && decide (e.newValues.length = t.primaryKeys.length)
      && e.oldValues.all valueWfb && e.newValues.all valueWfb
      && (t.primaryKeys.zip (e.oldValues.zip e.newValues)).all
           (fun pon => pon.2.1.isDefined == (pon.1 || pon.2.2.isDefined))

/-- Well-formedness of a whole changeset: every table satisfies spec section
3.2 and every entry the per-operation invariants of section 3.3 against its
table. -/
def changesetWfb : List (ChangesetTable × List ChangesetEntry) → Bool
  | [] => true
  | (t, es) :: rest => tableWfb t && es.all (entryWfb t) && changesetWfb rest

/-- The entry sequence a reader must yield for a changeset: the entries in
order, each with its `table` reference set to the table it was written
under. -/
def expectedEntries : List (ChangesetTable × List ChangesetEntry) → List ChangesetEntry :=
  concatMap (fun p => p.2.map (fun e => { e with table := some p.1 }))

/-- First remaining row record of a suspended read: given the rows still
pending for the current table and the tables still unread, the table, entry
and residue of the next entry to be yielded, or `none` when only (possibly
empty) table records remain. -/
def popEntry : ChangesetTable → List ChangesetEntry →
    List (ChangesetTable × List ChangesetEntry) →
    Option (ChangesetTable × ChangesetEntry × List ChangesetEntry ×
      List (ChangesetTable × List ChangesetEntry))
  | t, e :: es, data => some (t, e, es, data)
  | _, [], [] => none
  | _, [], (t2, es2) :: data2 => popEntry t2 es2 data2

/-- Total number of entries across all tables of a changeset. -/
def totalEntries : List (ChangesetTable × List ChangesetEntry) → Nat
  | [] => 0
  | (_, es) :: rest => es.length + totalEntries rest

/-- Big-endian base-128 value of a digit list (most significant first). -/
def evalBE (l : List Nat) : Nat := l.foldl (fun a d => a * 128 + d) 0

lemma varintLEFuel_ne_nil (fuel n : Nat) : varintLEFuel fuel n ≠ [] := by
  cases fuel with
  | zero => simp [varintLEFuel]
  | succ f =>
    unfold varintLEFuel
    split <;> simp

lemma varintLE_ne_nil (n : Nat) : varintLE n ≠ [] := varintLEFuel_ne_nil n n

lemma varintLEFuel_eval (fuel : Nat) : ∀ n, n ≤ fuel →
    (varintLEFuel fuel n).foldr (fun d a => a * 128 + d) 0 = n := by
  induction fuel with
  | zero => intro n hn; interval_cases n; simp [varintLEFuel]
  | succ f ih =>
    intro n hn
    unfold varintLEFuel
    split
    · simp
    · rename_i h
      have hdiv : n / 128 ≤ f := by
        have : n / 128 < n := Nat.div_lt_self (by omega) (by omega)
        omega
      simp only [List.foldr_cons, ih (n / 128) hdiv]
      omega

lemma varintLEFuel_digit_lt (fuel : Nat) : ∀ n, n ≤ fuel →
    ∀ d ∈ varintLEFuel fuel n, d < 128 := by
  induction fuel with
  | zero =>
    intro n hn
    interval_cases n
    simp [varintLEFuel]
  | succ f ih =>
    intro n hn
    unfold varintLEFuel
    split
    · rename_i h; simpa using h
    · rename_i h
      intro d hd
      rcases List.mem_cons.mp hd with h1 | h2
      · omega
      · exact ih (n / 128) (by
          have : n / 128 < n := Nat.div_lt_self (by omega) (by omega)
          omega) d h2

lemma varintLEFuel_len (k : Nat) : ∀ fuel n, n ≤ fuel → n < 128 ^ (k + 1) →
    (varintLEFuel fuel n).length ≤ k + 1 := by
  induction k with
  | zero =>
    intro fuel n hn hk
    cases fuel with
    | zero => simp [varintLEFuel]
    | succ f =>
      unfold varintLEFuel
      split
      · simp
      · rename_i h; simp at hk; omega
  | succ k ih =>
    intro fuel n hn hk
    cases fuel with
    | zero => simp [varintLEFuel]
    | succ f =>
      unfold varintLEFuel
      split
      · simp
      · rename_i h
        have hdivlt : n / 128 < n := Nat.div_lt_self (by omega) (by omega)
        have h1 : n / 128 < 128 ^ (k + 1) := by
          have h2 : n < 128 * 128 ^ (k + 1) := by
            calc n < 128 ^ (k + 1 + 1) := hk
            _ = 128 * 128 ^ (k + 1) := by ring
          exact Nat.div_lt_of_lt_mul h2
        have := ih f (n / 128) (by omega) h1
        simp only [List.length_cons]
        omega

lemma varintLEFuel_lower (fuel : Nat) : ∀ n, n ≤ fuel → 1 ≤ n →
    128 ^ ((varintLEFuel fuel n).length - 1) ≤ n := by
  induction fuel with
  | zero => intro n hn h1; omega
  | succ f ih =>
    intro n hn h1
    unfold varintLEFuel
    split
    · simpa using h1
    · rename_i h
      have hdivlt : n / 128 < n := Nat.div_lt_self (by omega) (by omega)
      have hd1 : 1 ≤ n / 128 := by
        have : 128 ≤ n := by omega
        exact Nat.one_le_div_iff (by omega) |>.mpr this
      have hlow := ih (n / 128) (by omega) hd1
      have hnn := varintLEFuel_ne_nil f (n / 128)
      have hlen1 : 1 ≤ (varintLEFuel f (n / 128)).length :=
        List.length_pos.mpr hnn
      simp only [List.length_cons]
      have hstep : 128 ^ ((varintLEFuel f (n / 128)).length - 1 + 1) ≤ n := by
        rw [pow_succ]
        calc 128 ^ ((varintLEFuel f (n / 128)).length - 1) * 128
            ≤ (n / 128) * 128 := by
              exact Nat.mul_le_mul_right 128 hlow
        _ ≤ n := Nat.div_mul_le_self n 128
      have : (varintLEFuel f (n / 128)).length - 1 + 1 =
          (varintLEFuel f (n / 128)).length + 1 - 1 := by omega
      rw [← this]
      exact hstep

lemma varintLE_small (n : Nat) (h : n < 128) : varintLE n = [n] := by
  unfold varintLE
  cases n with
  | zero => simp [varintLEFuel]
  | succ m => unfold varintLEFuel; simp [h]

lemma evalBE_varintBE (n : Nat) : evalBE (varintBE n) = n := by
  unfold evalBE varintBE
  rw [List.foldl_reverse]
  exact varintLEFuel_eval n n le_rfl

lemma varintBE_digit_lt (n : Nat) : ∀ d ∈ varintBE n, d < 128 := by
  intro d hd
  exact varintLEFuel_digit_lt n n le_rfl d (List.mem_reverse.mp hd)

lemma varintBE_ne_nil (n : Nat) : varintBE n ≠ [] := by
  unfold varintBE
  simp [varintLE_ne_nil]

lemma varintBE_len_le (n : Nat) (h : n < 2 ^ 35) : (varintBE n).length ≤ 5 := by
  unfold varintBE
  rw [List.length_reverse]
  have h5 : n < 128 ^ (4 + 1) := by
    calc n < 2 ^ 35 := h
    _ = 128 ^ (4 + 1) := by norm_num
  exact varintLEFuel_len 4 n n le_rfl h5

lemma varintBE_lower (n : Nat) (h : 1 ≤ n) :
    128 ^ ((varintBE n).length - 1) ≤ n := by
  unfold varintBE
  rw [List.length_reverse]
  exact varintLEFuel_lower n n le_rfl h

lemma contEnc_length (ds : List Nat) : (contEnc ds).length = ds.length := by
  induction ds with
  | nil => simp [contEnc]
  | cons d tl ih =>
    cases tl with
    | nil => simp [contEnc]
    | cons e tl2 => simp [contEnc, ih]

lemma contEnc_lt256 (ds : List Nat) (h : ∀ d ∈ ds, d < 128) :
    ∀ b ∈ contEnc ds, b < 256 := by
  induction ds with
  | nil => simp [contEnc]
  | cons d tl ih =>
    cases tl with
    | nil =>
      intro b hb
      simp only [contEnc, List.mem_singleton] at hb
      have hd := h d (by simp)
      omega
    | cons e tl2 =>
      intro b hb
      simp only [contEnc, List.mem_cons] at hb
      rcases hb with hb | hb
      · have hd := h d (by simp)
        omega
      · exact ih (fun x hx => h x (List.mem_cons_of_mem d hx)) b hb

lemma evalBE_foldl (l : List Nat) : ∀ acc,
    l.foldl (fun a d => a * 128 + d) acc = acc * 128 ^ l.length + evalBE l := by
  induction l with
  | nil => intro acc; simp [evalBE]
  | cons d tl ih =>
    intro acc
    simp only [evalBE, List.foldl_cons, Nat.zero_mul, Nat.zero_add] at *
    rw [ih (acc * 128 + d), ih d]
    simp only [List.length_cons]
    ring

lemma evalBE_cons (d : Nat) (tl : List Nat) :
    evalBE (d :: tl) = d * 128 ^ tl.length + evalBE tl := by
  simp only [evalBE, List.foldl_cons, Nat.zero_mul, Nat.zero_add]
  exact evalBE_foldl tl d

lemma evalBE_lt (l : List Nat) (h : ∀ d ∈ l, d < 128) :
    evalBE l < 128 ^ l.length := by
  induction l with
  | nil => simp [evalBE]
  | cons d tl ih =>
    have hd : d < 128 := h d (by simp)
    have htl := ih (fun x hx => h x (List.mem_cons_of_mem d hx))
    rw [evalBE_cons]
    simp only [List.length_cons, pow_succ]
    calc d * 128 ^ tl.length + evalBE tl
        < d * 128 ^ tl.length + 128 ^ tl.length := by omega
    _ = (d + 1) * 128 ^ tl.length := by ring
    _ ≤ 128 * 128 ^ tl.length := Nat.mul_le_mul_right _ (by omega)
    _ = 128 ^ tl.length * 128 := by ring

lemma evalBE_inj (l1 : List Nat) : ∀ l2, l1.length = l2.length →
    (∀ d ∈ l1, d < 128) → (∀ d ∈ l2, d < 128) →
    evalBE l1 = evalBE l2 → l1 = l2 := by
  induction l1 with
  | nil =>
    intro l2 hlen _ _ _
    cases l2 with
    | nil => rfl
    | cons e tl2 => simp at hlen
  | cons d tl ih =>
    intro l2 hlen h1 h2 hev
    cases l2 with
    | nil => simp at hlen
    | cons e tl2 =>
      simp only [List.length_cons] at hlen
      have hlen2 : tl.length = tl2.length := by omega
      have hd : d < 128 := h1 d (by simp)
      have he : e < 128 := h2 e (by simp)
      have hvt : evalBE tl < 128 ^ tl.length :=
        evalBE_lt tl (fun x hx => h1 x (List.mem_cons_of_mem d hx))
      have hvt2 : evalBE tl2 < 128 ^ tl2.length :=
        evalBE_lt tl2 (fun x hx => h2 x (List.mem_cons_of_mem e hx))
      rw [evalBE_cons, evalBE_cons] at hev
      rw [hlen2] at hev hvt
      have hde : d = e := by
        rcases Nat.lt_trichotomy d e with hlt | heq | hgt
        · exfalso
          have hstep : d * 128 ^ tl2.length + evalBE tl < e * 128 ^ tl2.length := by
            calc d * 128 ^ tl2.length + evalBE tl
                < d * 128 ^ tl2.length + 128 ^ tl2.length := by omega
            _ = (d + 1) * 128 ^ tl2.length := by ring
            _ ≤ e * 128 ^ tl2.length := Nat.mul_le_mul_right _ (by omega)
          omega
        · exact heq
        · exfalso
          have hstep : e * 128 ^ tl2.length + evalBE tl2 < d * 128 ^ tl2.length := by
            calc e * 128 ^ tl2.length + evalBE tl2
                < e * 128 ^ tl2.length + 128 ^ tl2.length := by omega
            _ = (e + 1) * 128 ^ tl2.length := by ring
            _ ≤ d * 128 ^ tl2.length := Nat.mul_le_mul_right _ (by omega)
          omega
      subst hde
      have heq2 : evalBE tl = evalBE tl2 := by omega
      rw [ih tl2 hlen2 (fun x hx => h1 x (List.mem_cons_of_mem d hx))
        (fun x hx => h2 x (List.mem_cons_of_mem d hx)) heq2]

lemma readVarintAux_contEnc (ds : List Nat) : ∀ fuel acc rest off,
    ds ≠ [] → ds.length ≤ fuel → (∀ d ∈ ds, d < 128) →
    readVarintAux fuel acc ⟨contEnc ds ++ rest, off⟩ =
      .ok (ds.foldl (fun a d => a * 128 + d) acc, ⟨rest, off + ds.length⟩) := by
  induction ds with
  | nil => intro fuel acc rest off hne; exact absurd rfl hne
  | cons d tl ih =>
    intro fuel acc rest off _ hlen hdig
    have hd : d < 128 := hdig d (by simp)
    obtain ⟨f, rfl⟩ : ∃ f, fuel = f + 1 := by
      cases fuel with
      | zero => simp at hlen
      | succ f => exact ⟨f, rfl⟩
    cases tl with
    | nil =>
      have hc : contEnc [d] ++ rest = d :: rest := by simp [contEnc]
      rw [hc]
      unfold readVarintAux
      simp only [readByte]
      rw [if_pos hd]
      simp
    | cons e tl2 =>
      simp only [contEnc, List.cons_append, readVarintAux, readByte]
      have hnd : ¬ (d + 128 < 128) := by omega
      rw [if_neg hnd]
      have hsub : d + 128 - 128 = d := by omega
      rw [hsub]
      have htl : (e :: tl2).length ≤ f := by
        simp only [List.length_cons] at hlen ⊢
        omega
      rw [ih f (acc * 128 + d) rest (off + 1) (by simp) htl
        (fun x hx => hdig x (List.mem_cons_of_mem d hx))]
      have hoff : off + 1 + (e :: tl2).length = off + (d :: e :: tl2).length := by
        simp only [List.length_cons]
        omega
      rw [hoff]
      simp only [List.foldl_cons]

lemma readVarintAux_ok (fuel : Nat) : ∀ acc bs off n s2,
    readVarintAux fuel acc ⟨bs, off⟩ = .ok (n, s2) → (∀ b ∈ bs, b < 256) →
    ∃ ds, ds ≠ [] ∧ ds.length ≤ fuel ∧ (∀ d ∈ ds, d < 128) ∧
      bs = contEnc ds ++ s2.rest ∧
      n = ds.foldl (fun a d => a * 128 + d) acc := by
  induction fuel with
  | zero =>
    intro acc bs off n s2 h
    simp [readVarintAux] at h
  | succ f ih =>
    intro acc bs off n s2 h hbytes
    cases bs with
    | nil => simp [readVarintAux, readByte] at h
    | cons b tl =>
      simp only [readVarintAux, readByte] at h
      by_cases hb : b < 128
      · rw [if_pos hb] at h
        simp only [Except.ok.injEq, Prod.mk.injEq] at h
        obtain ⟨hn, hs⟩ := h
        subst hn
        subst hs
        exact ⟨[b], by simp, by simp, by simpa using hb, by simp [contEnc], by simp⟩
      · rw [if_neg hb] at h
        obtain ⟨ds, hne, hlen, hdig, hshape, hval⟩ :=
          ih (acc * 128 + (b - 128)) tl (off + 1) n s2 h
            (fun x hx => hbytes x (List.mem_cons_of_mem b hx))
        have hb256 : b < 256 := hbytes b (by simp)
        refine ⟨(b - 128) :: ds, by simp, ?_, ?_, ?_, ?_⟩
        · simp only [List.length_cons]
          omega
        · intro x hx
          rcases List.mem_cons.mp hx with hx | hx
          · omega
          · exact hdig x hx
        · cases ds with
          | nil => exact absurd rfl hne
          | cons e tl2 =>
            simp only [contEnc, List.cons_append]
            have hfix : b - 128 + 128 = b := by omega
            rw [hfix]
            simp only [List.cons.injEq, true_and]
            simpa [contEnc] using hshape
        · simpa using hval

lemma writeVarint_length (n : Nat) : (writeVarint n).length = (varintBE n).length := by
  unfold writeVarint
  exact contEnc_length (varintBE n)

lemma readVarint_writeVarint (n : Nat) (h : n < 2 ^ 35) : ∀ rest off,
    readVarint ⟨writeVarint n ++ rest, off⟩ =
      .ok (n, ⟨rest, off + (writeVarint n).length⟩) := by
  intro rest off
  unfold readVarint writeVarint
  rw [readVarintAux_contEnc (varintBE n) 5 0 rest off (varintBE_ne_nil n)
    (varintBE_len_le n h) (varintBE_digit_lt n)]
  have hev : (varintBE n).foldl (fun a d => a * 128 + d) 0 = n := evalBE_varintBE n
  rw [hev, contEnc_length]

lemma writeVarint_lt256 (n : Nat) : ∀ b ∈ writeVarint n, b < 256 :=
  contEnc_lt256 (varintBE n) (varintBE_digit_lt n)

/-- A complete varint encoding of `n`: a byte string that the reader's
`readVarint` consumes in full, yielding `n`. -/
def isVarintEnc (l : List Nat) (n : Nat) : Prop :=
  (∀ b ∈ l, b < 256) ∧ readVarint ⟨l, 0⟩ = .ok (n, ⟨[], l.length⟩)

lemma writeVarint_isVarintEnc (n : Nat) (h : n < 2 ^ 35) :
    isVarintEnc (writeVarint n) n := by
  refine ⟨writeVarint_lt256 n, ?_⟩
  have := readVarint_writeVarint n h [] 0
  simpa using this

lemma isVarintEnc_minimal (n : Nat) (l : List Nat) (henc : isVarintEnc l n) :
    (writeVarint n).length ≤ l.length ∧
      (l.length ≤ (writeVarint n).length → l = writeVarint n) := by
  obtain ⟨hbytes, hdec⟩ := henc
  unfold readVarint at hdec
  obtain ⟨ds, hne, hlen, hdig, hshape, hval⟩ :=
    readVarintAux_ok 5 0 l 0 n ⟨[], l.length⟩ hdec hbytes
  simp only [List.append_nil] at hshape
  have hevn : evalBE ds = n := by
    unfold evalBE
    exact hval.symm
  have hlds : l.length = ds.length := by rw [hshape, contEnc_length]
  have hk0 : (writeVarint n).length = (varintBE n).length := writeVarint_length n
  have hmin : (varintBE n).length ≤ ds.length := by
    by_contra hlt
    push_neg at hlt
    have hk2 : 2 ≤ (varintBE n).length := by
      have h1 : 1 ≤ ds.length := List.length_pos.mpr hne
      omega
    have hn128 : 128 ≤ n := by
      by_contra hsmall
      push_neg at hsmall
      have : varintBE n = [n] := by
        unfold varintBE
        rw [varintLE_small n hsmall]
        simp
      rw [this] at hk2
      simp at hk2
    have hlow : 128 ^ ((varintBE n).length - 1) ≤ n :=
      varintBE_lower n (by omega)
    have hup : evalBE ds < 128 ^ ds.length := evalBE_lt ds hdig
    have hple : (128 : Nat) ^ ds.length ≤ 128 ^ ((varintBE n).length - 1) :=
      Nat.pow_le_pow_right (by omega) (by omega)
    omega
  constructor
  · omega
  · intro hle
    have hdslen : ds.length = (varintBE n).length := by omega
    have hds : ds = varintBE n :=
      evalBE_inj ds (varintBE n) hdslen hdig (varintBE_digit_lt n)
        (by rw [hevn, evalBE_varintBE])
    rw [hshape, hds]
    rfl

lemma beToNat_append_one (l : List Nat) (b : Nat) :
    beToNat (l ++ [b]) = beToNat l * 256 + b := by
  unfold beToNat
  rw [List.foldl_append]
  simp

lemma beBytes_length (k : Nat) : ∀ x, (beBytes k x).length = k := by
  induction k with
  | zero => intro x; simp [beBytes]
  | succ k ih => intro x; simp [beBytes, ih]

lemma beToNat_beBytes (k : Nat) : ∀ x, beToNat (beBytes k x) = x % 256 ^ k := by
  induction k with
  | zero => intro x; simp [beBytes, beToNat, Nat.mod_one]
  | succ k ih =>
    intro x
    simp only [beBytes]
    rw [beToNat_append_one, ih (x / 256)]
    have h : 256 ^ (k + 1) = 256 * 256 ^ k := by ring
    rw [h, Nat.mod_mul]
    ring

lemma int64ToNat_lt (v : Int) : int64ToNat v < 2 ^ 64 := by
  unfold int64ToNat
  have h1 : 0 ≤ v % (2 ^ 64 : Int) := Int.emod_nonneg v (by norm_num)
  have h2 : v % (2 ^ 64 : Int) < 2 ^ 64 := Int.emod_lt_of_pos v (by norm_num)
  omega

lemma int64_roundtrip (v : Int) (h1 : -(2 ^ 63) ≤ v) (h2 : v < 2 ^ 63) :
    int64OfNat (int64ToNat v) = v := by
  unfold int64OfNat int64ToNat
  split <;> omega

lemma readBytesN_append (l : List Nat) : ∀ rest off,
    readBytesN l.length ⟨l ++ rest, off⟩ = .ok (l, ⟨rest, off + l.length⟩) := by
  induction l with
  | nil => intro rest off; simp [readBytesN]
  | cons b tl ih =>
    intro rest off
    show readBytesN (tl.length + 1) ⟨b :: (tl ++ rest), off⟩ = _
    unfold readBytesN
    simp only [readByte]
    rw [ih rest (off + 1)]
    have hoff : off + 1 + tl.length = off + (tl.length + 1) := by omega
    simp [hoff]

lemma readNTSAux_append (nm : List Nat) : ∀ rest off, (∀ b ∈ nm, b ≠ 0) →
    readNTSAux (nm ++ 0 :: rest) off = .ok (nm, ⟨rest, off + nm.length + 1⟩) := by
  induction nm with
  | nil => intro rest off _; simp [readNTSAux]
  | cons b tl ih =>
    intro rest off h
    have hb : b ≠ 0 := h b (by simp)
    simp only [List.cons_append, readNTSAux, List.append_eq]
    rw [if_neg hb, ih rest (off + 1) (fun x hx => h x (List.mem_cons_of_mem b hx))]
    have hoff : off + 1 + tl.length + 1 = off + (tl.length + 1) + 1 := by omega
    simp [hoff]

lemma readValue_write (v : Value) (hwf : valueWfb v = true) : ∀ rest off,
    readValue ⟨writeValue v ++ rest, off⟩ =
      .ok (v, ⟨rest, off + (writeValue v).length⟩) := by
  intro rest off
  cases v with
  | undefined => simp [writeValue, readValue, readByte]
  | null => simp [writeValue, readValue, readByte]
  | int n =>
    simp only [valueWfb, Bool.and_eq_true, decide_eq_true_eq] at hwf
    have h8 : readBytesN 8 ⟨beBytes 8 (int64ToNat n) ++ rest, off + 1⟩ =
        .ok (beBytes 8 (int64ToNat n), ⟨rest, off + 1 + 8⟩) := by
      have h := readBytesN_append (beBytes 8 (int64ToNat n)) rest (off + 1)
      rwa [beBytes_length] at h
    have hmod : beToNat (beBytes 8 (int64ToNat n)) = int64ToNat n := by
      rw [beToNat_beBytes]
      refine Nat.mod_eq_of_lt ?_
      have := int64ToNat_lt n
      norm_num
      omega
    simp only [writeValue, List.cons_append, readValue, readByte, h8, hmod]
    norm_num [int64_roundtrip n hwf.1 hwf.2, beBytes_length]
  | double b =>
    simp only [valueWfb, decide_eq_true_eq] at hwf
    have h8 : readBytesN 8 ⟨beBytes 8 b ++ rest, off + 1⟩ =
        .ok (beBytes 8 b, ⟨rest, off + 1 + 8⟩) := by
      have h := readBytesN_append (beBytes 8 b) rest (off + 1)
      rwa [beBytes_length] at h
    have hmod : beToNat (beBytes 8 b) = b := by
      rw [beToNat_beBytes]
      refine Nat.mod_eq_of_lt ?_
      norm_num
      omega
    simp only [writeValue, List.cons_append, readValue, readByte, h8, hmod]
    norm_num [beBytes_length]
  | text s =>
    simp only [valueWfb, Bool.and_eq_true, decide_eq_true_eq] at hwf
    have hlen : s.length < 2 ^ 35 := by
      have := hwf.2
      norm_num at *
      omega
    have hvi := readVarint_writeVarint s.length hlen (s ++ rest)
      (off + 1)
    have hbn : readBytesN s.length
        ⟨s ++ rest, off + 1 + (writeVarint s.length).length⟩ =
        .ok (s, ⟨rest, off + 1 + (writeVarint s.length).length + s.length⟩) :=
      readBytesN_append s rest (off + 1 + (writeVarint s.length).length)
    simp only [writeValue, List.cons_append, List.append_assoc, readValue,
      readByte, hvi, hbn]
    norm_num
    omega
  | blob s =>
    simp only [valueWfb, Bool.and_eq_true, decide_eq_true_eq] at hwf
    have hlen : s.length < 2 ^ 35 := by
      have := hwf.2
      norm_num at *
      omega
    have hvi := readVarint_writeVarint s.length hlen (s ++ rest)
      (off + 1)
    have hbn : readBytesN s.length
        ⟨s ++ rest, off + 1 + (writeVarint s.length).length⟩ =
        .ok (s, ⟨rest, off + 1 + (writeVarint s.length).length + s.length⟩) :=
      readBytesN_append s rest (off + 1 + (writeVarint s.length).length)
    simp only [writeValue, List.cons_append, List.append_assoc, readValue,
      readByte, hvi, hbn]
    norm_num
    omega

lemma readRowValues_write (vs : List Value) : ∀ rest off,
    vs.all valueWfb = true →
    readRowValues vs.length ⟨writeRowValues vs ++ rest, off⟩ =
      .ok (vs, ⟨rest, off + (writeRowValues vs).length⟩) := by
  induction vs with
  | nil => intro rest off _; simp [readRowValues, writeRowValues, concatMap]
  | cons v tl ih =>
    intro rest off hwf
    simp only [List.all_cons, Bool.and_eq_true] at hwf
    have hshape : writeRowValues (v :: tl) ++ rest
        = writeValue v ++ (writeRowValues tl ++ rest) := by
      simp [writeRowValues, concatMap]
    show readRowValues (tl.length + 1) ⟨writeRowValues (v :: tl) ++ rest, off⟩ = _
    rw [hshape]
    have h1 := readValue_write v hwf.1 (writeRowValues tl ++ rest) off
    have h2 := ih rest (off + (writeValue v).length) hwf.2
    simp only [readRowValues, h1, h2]
    have hlen : (writeRowValues (v :: tl)).length =
        (writeValue v).length + (writeRowValues tl).length := by
      simp [writeRowValues, concatMap]
    rw [hlen, ← Nat.add_assoc]

lemma readRowValues_length (n : Nat) : ∀ s vs s2,
    readRowValues n s = .ok (vs, s2) → vs.length = n := by
  induction n with
  | zero =>
    intro s vs s2 h
    simp only [readRowValues, Except.ok.injEq, Prod.mk.injEq] at h
    simp [← h.1]
  | succ m ih =>
    intro s vs s2 h
    simp only [readRowValues] at h
    split at h
    · simp at h
    · rename_i v s1 hv
      split at h
      · simp at h
      · rename_i vs2 s3 hr
        simp only [Except.ok.injEq, Prod.mk.injEq] at h
        have hl := ih _ _ _ hr
        rw [← h.1]
        simp [hl]

/-- Body of a table record after the 'T' marker byte. -/
def tableBody (t : ChangesetTable) : List Nat :=
  writeVarint t.primaryKeys.length
    ++ t.primaryKeys.map (fun pk => if pk then 1 else 0) ++ t.name ++ [0]

lemma beginTable_eq (t : ChangesetTable) : beginTable t = 84 :: tableBody t := rfl

lemma pkBytes_roundtrip (pks : List Bool) :
    (pks.map (fun pk => if pk then (1 : Nat) else 0)).map (fun b => b != 0) = pks := by
  induction pks with
  | nil => simp
  | cons p tl ih => cases p <;> simp [ih]

lemma readTableRecord_write (t : ChangesetTable) (hwf : tableWfb t = true)
    (rest : List Nat) (off : Nat) :
    readTableRecord ⟨tableBody t ++ rest, off⟩ =
      .ok (t, ⟨rest, off + (tableBody t).length⟩) := by
  simp only [tableWfb, Bool.and_eq_true, List.all_eq_true, Bool.and_eq_true,
    decide_eq_true_eq] at hwf
  obtain ⟨⟨⟨hne, hbytes⟩, hpk⟩, hlen31⟩ := hwf
  have hlen : t.primaryKeys.length < 2 ^ 35 := by omega
  have hshape : tableBody t ++ rest =
      writeVarint t.primaryKeys.length ++
        ((t.primaryKeys.map (fun pk => if pk then 1 else 0)) ++
          (t.name ++ 0 :: rest)) := by
    simp [tableBody]
  rw [hshape]
  have hv := readVarint_writeVarint t.primaryKeys.length hlen
    ((t.primaryKeys.map (fun pk => if pk then 1 else 0)) ++ (t.name ++ 0 :: rest))
    off
  have hbn : readBytesN t.primaryKeys.length
      ⟨(t.primaryKeys.map (fun pk => if pk then 1 else 0)) ++ (t.name ++ 0 :: rest),
        off + (writeVarint t.primaryKeys.length).length⟩ =
      .ok (t.primaryKeys.map (fun pk => if pk then 1 else 0),
        ⟨t.name ++ 0 :: rest,
          off + (writeVarint t.primaryKeys.length).length
            + t.primaryKeys.length⟩) := by
    have h := readBytesN_append (t.primaryKeys.map (fun pk => if pk then 1 else 0))
      (t.name ++ 0 :: rest) (off + (writeVarint t.primaryKeys.length).length)
    simpa [List.length_map] using h
  have hns : readNTSAux (t.name ++ 0 :: rest)
      (off + (writeVarint t.primaryKeys.length).length + t.primaryKeys.length) =
      .ok (t.name, ⟨rest,
        off + (writeVarint t.primaryKeys.length).length + t.primaryKeys.length
          + t.name.length + 1⟩) :=
    readNTSAux_append t.name rest _ (fun b hb => by
      have := (hbytes b hb).1
      omega)
  simp only [readTableRecord, hv, hbn, readNullTerminatedString, hns,
    pkBytes_roundtrip]
  have hlen2 : (tableBody t).length =
      (writeVarint t.primaryKeys.length).length + t.primaryKeys.length
        + t.name.length + 1 := by
    simp [tableBody]
    omega
  rw [hlen2]
  have hoff : off + (writeVarint t.primaryKeys.length).length
      + t.primaryKeys.length + t.name.length + 1 =
      off + ((writeVarint t.primaryKeys.length).length + t.primaryKeys.length
        + t.name.length + 1) := by omega
  rw [hoff]

lemma nextEntryAux_nil (fuel off : Nat) (ct : Option ChangesetTable) :
    nextEntryAux (fuel + 1) ⟨⟨[], off⟩, ct⟩ = .ok none := by
  simp [nextEntryAux]

lemma nextEntryAux_table (t : ChangesetTable) (hwf : tableWfb t = true)
    (fuel off : Nat) (ct : Option ChangesetTable) (rest : List Nat) :
    nextEntryAux (fuel + 1) ⟨⟨beginTable t ++ rest, off⟩, ct⟩ =
      nextEntryAux fuel ⟨⟨rest, off + (beginTable t).length⟩, some t⟩ := by
  have hrt := readTableRecord_write t hwf rest (off + 1)
  rw [beginTable_eq]
  show nextEntryAux (fuel + 1) ⟨⟨84 :: (tableBody t ++ rest), off⟩, ct⟩ = _
  simp only [nextEntryAux, readByte, hrt, reduceIte]
  have hoff : off + 1 + (tableBody t).length = off + (84 :: tableBody t).length := by
    simp only [List.length_cons]
    omega
  rw [hoff]

lemma entryWfb_all_old (t : ChangesetTable) (e : ChangesetEntry)
    (hwf : entryWfb t e = true) : e.oldValues.all valueWfb = true := by
  unfold entryWfb at hwf
  cases hop : e.op with
  | OpInsert =>
    rw [hop] at hwf
    simp only [Bool.and_eq_true, List.isEmpty_iff] at hwf
    rw [hwf.1.1]
    rfl
  | OpDelete =>
    rw [hop] at hwf
    simp only [Bool.and_eq_true, List.all_eq_true] at hwf
    rw [List.all_eq_true]
    intro v hv
    exact (hwf.2 v hv).2
  | OpUpdate =>
    rw [hop] at hwf
    simp only [Bool.and_eq_true] at hwf
    exact hwf.1.1.2

lemma entryWfb_all_new (t : ChangesetTable) (e : ChangesetEntry)
    (hwf : entryWfb t e = true) : e.newValues.all valueWfb = true := by
  unfold entryWfb at hwf
  cases hop : e.op with
  | OpInsert =>
    rw [hop] at hwf
    simp only [Bool.and_eq_true, List.all_eq_true] at hwf
    rw [List.all_eq_true]
    intro v hv
    exact (hwf.2 v hv).2
  | OpDelete =>
    rw [hop] at hwf
    simp only [Bool.and_eq_true, List.isEmpty_iff] at hwf
    rw [hwf.1.1]
    rfl
  | OpUpdate =>
    rw [hop] at hwf
    simp only [Bool.and_eq_true] at hwf
    exact hwf.1.2

lemma nextEntryAux_entry (t : ChangesetTable) (e : ChangesetEntry)
    (hwf : entryWfb t e = true) (fuel off : Nat) (rest : List Nat) :
    nextEntryAux (fuel + 1) ⟨⟨writeEntry e ++ rest, off⟩, some t⟩ =
      .ok (some ({ e with table := some t },
        ⟨⟨rest, off + (writeEntry e).length⟩, some t⟩)) := by
  obtain ⟨op, olds, news, tbl⟩ := e
  cases op with
  | OpInsert =>
    have hall := entryWfb_all_new t ⟨.OpInsert, olds, news, tbl⟩ hwf
    unfold entryWfb at hwf
    simp only [Bool.and_eq_true, List.isEmpty_iff, decide_eq_true_eq] at hwf
    obtain ⟨⟨holds, hlen⟩, _⟩ := hwf
    subst holds
    have hrv := readRowValues_write news rest (off + 2) hall
    have hoff : off + 2 + (writeRowValues news).length =
        off + (writeEntry ⟨.OpInsert, [], news, tbl⟩).length := by
      simp only [writeEntry, List.length_cons]
      omega
    show nextEntryAux (fuel + 1)
        ⟨⟨18 :: 0 :: (writeRowValues news ++ rest), off⟩, some t⟩ = _
    simp only [nextEntryAux, readByte, opOfByte]
    norm_num
    rw [← hlen]
    simp only [hrv]
    rw [hoff]
  | OpDelete =>
    have hall := entryWfb_all_old t ⟨.OpDelete, olds, news, tbl⟩ hwf
    unfold entryWfb at hwf
    simp only [Bool.and_eq_true, List.isEmpty_iff, decide_eq_true_eq] at hwf
    obtain ⟨⟨hnews, hlen⟩, _⟩ := hwf
    subst hnews
    have hrv := readRowValues_write olds rest (off + 2) hall
    have hoff : off + 2 + (writeRowValues olds).length =
        off + (writeEntry ⟨.OpDelete, olds, [], tbl⟩).length := by
      simp only [writeEntry, List.length_cons]
      omega
    show nextEntryAux (fuel + 1)
        ⟨⟨9 :: 0 :: (writeRowValues olds ++ rest), off⟩, some t⟩ = _
    simp only [nextEntryAux, readByte, opOfByte]
    norm_num
    rw [← hlen]
    simp only [hrv]
    rw [hoff]
  | OpUpdate =>
    have hallo := entryWfb_all_old t ⟨.OpUpdate, olds, news, tbl⟩ hwf
    have halln := entryWfb_all_new t ⟨.OpUpdate, olds, news, tbl⟩ hwf
    unfold entryWfb at hwf
    simp only [Bool.and_eq_true, decide_eq_true_eq] at hwf
    obtain ⟨⟨⟨⟨hleno, hlenn⟩, _⟩, _⟩, _⟩ := hwf
    have hrv1 := readRowValues_write olds (writeRowValues news ++ rest)
      (off + 2) hallo
    have hrv2 := readRowValues_write news rest
      (off + 2 + (writeRowValues olds).length) halln
    have hshape : (writeRowValues olds ++ writeRowValues news) ++ rest =
        writeRowValues olds ++ (writeRowValues news ++ rest) := by
      simp [List.append_assoc]
    have hoff : off + 2 + (writeRowValues olds).length
        + (writeRowValues news).length =
        off + (writeEntry ⟨.OpUpdate, olds, news, tbl⟩).length := by
      simp only [writeEntry, List.length_cons, List.length_append]
      omega
    show nextEntryAux (fuel + 1)
        ⟨⟨23 :: 0 :: ((writeRowValues olds ++ writeRowValues news) ++ rest),
          off⟩, some t⟩ = _
    rw [hshape]
    simp only [nextEntryAux, readByte, opOfByte]
    norm_num
    rw [← hleno]
    simp only [hrv1]
    rw [show olds.length = news.length from by omega]
    simp only [hrv2]
    rw [hoff]

lemma popEntry_none (data : List (ChangesetTable × List ChangesetEntry)) :
    ∀ t es, popEntry t es data = none →
      es = [] ∧ (es.map (fun e => { e with table := some t })
        ++ expectedEntries data) = [] := by
  induction data with
  | nil =>
    intro t es h
    cases es with
    | nil => simp [expectedEntries, concatMap]
    | cons e tl => simp [popEntry] at h
  | cons p data2 ih =>
    intro t es h
    obtain ⟨t2, es2⟩ := p
    cases es with
    | cons e tl => simp [popEntry] at h
    | nil =>
      have h2 : popEntry t2 es2 data2 = none := by
        simpa [popEntry] using h
      obtain ⟨hes2, hmap⟩ := ih t2 es2 h2
      subst hes2
      refine ⟨rfl, ?_⟩
      simpa [expectedEntries, concatMap] using hmap

lemma popEntry_some (data : List (ChangesetTable × List ChangesetEntry)) :
    ∀ t es t2 e es2 data2, popEntry t es data = some (t2, e, es2, data2) →
      (es.map (fun x => { x with table := some t }) ++ expectedEntries data) =
        { e with table := some t2 } ::
          (es2.map (fun x => { x with table := some t2 })
            ++ expectedEntries data2) ∧
      es2.length + totalEntries data2 + 1 = es.length + totalEntries data := by
  induction data with
  | nil =>
    intro t es t2 e es2 data2 h
    cases es with
    | nil => simp [popEntry] at h
    | cons x tl =>
      simp only [popEntry, Option.some.injEq, Prod.mk.injEq] at h
      obtain ⟨rfl, rfl, rfl, rfl⟩ := h
      simp [expectedEntries, concatMap, totalEntries]
  | cons p data3 ih =>
    intro t es t2 e es2 data2 h
    obtain ⟨t3, es3⟩ := p
    cases es with
    | cons x tl =>
      simp only [popEntry, Option.some.injEq, Prod.mk.injEq] at h
      obtain ⟨rfl, rfl, rfl, rfl⟩ := h
      refine ⟨by simp, ?_⟩
      simp only [List.length_cons]
      omega
    | nil =>
      have h2 : popEntry t3 es3 data3 = some (t2, e, es2, data2) := by
        simpa [popEntry] using h
      obtain ⟨hmap, hcount⟩ := ih t3 es3 t2 e es2 data2 h2
      constructor
      · simpa [expectedEntries, concatMap] using hmap
      · simp only [totalEntries, List.length_nil]
        omega

lemma popEntry_wf (data : List (ChangesetTable × List ChangesetEntry)) :
    ∀ t es t2 e es2 data2,
    es.all (entryWfb t) = true → changesetWfb data = true →
    popEntry t es data = some (t2, e, es2, data2) →
    entryWfb t2 e = true ∧ es2.all (entryWfb t2) = true ∧
      changesetWfb data2 = true := by
  induction data with
  | nil =>
    intro t es t2 e es2 data2 hes hdata h
    cases es with
    | nil => simp [popEntry] at h
    | cons x tl =>
      simp only [popEntry, Option.some.injEq, Prod.mk.injEq] at h
      obtain ⟨rfl, rfl, rfl, rfl⟩ := h
      simp only [List.all_cons, Bool.and_eq_true] at hes
      exact ⟨hes.1, hes.2, hdata⟩
  | cons p data3 ih =>
    intro t es t2 e es2 data2 hes hdata h
    obtain ⟨t3, es3⟩ := p
    cases es with
    | cons x tl =>
      simp only [popEntry, Option.some.injEq, Prod.mk.injEq] at h
      obtain ⟨rfl, rfl, rfl, rfl⟩ := h
      simp only [List.all_cons, Bool.and_eq_true] at hes
      exact ⟨hes.1, hes.2, hdata⟩
    | nil =>
      simp only [changesetWfb, Bool.and_eq_true] at hdata
      exact ih t3 es3 t2 e es2 data2 hdata.1.2 hdata.2
        (by simpa [popEntry] using h)

lemma nextEntryAux_mid (data : List (ChangesetTable × List ChangesetEntry)) :
    ∀ t es oct fuel off,
    es.all (entryWfb t) = true → changesetWfb data = true →
    (es ≠ [] → oct = some t) → data.length < fuel →
    (popEntry t es data = none →
      nextEntryAux fuel
          ⟨⟨concatMap writeEntry es ++ writeChangeset data, off⟩, oct⟩ =
        .ok none) ∧
    (∀ t2 e es2 data2, popEntry t es data = some (t2, e, es2, data2) →
      ∃ off2, nextEntryAux fuel
          ⟨⟨concatMap writeEntry es ++ writeChangeset data, off⟩, oct⟩ =
        .ok (some ({ e with table := some t2 },
          ⟨⟨concatMap writeEntry es2 ++ writeChangeset data2, off2⟩,
            some t2⟩))) := by
  induction data with
  | nil =>
    intro t es oct fuel off hes hdata hct hfuel
    obtain ⟨f, rfl⟩ : ∃ f, fuel = f + 1 := ⟨fuel - 1, by omega⟩
    cases es with
    | nil =>
      constructor
      · intro _
        simp only [concatMap, writeChangeset, List.nil_append]
        exact nextEntryAux_nil f off oct
      · intro t2 e es2 data2 h
        simp [popEntry] at h
    | cons x tl =>
      have hoct := hct (by simp)
      subst hoct
      constructor
      · intro h
        simp [popEntry] at h
      · intro t2 e es2 data2 h
        simp only [popEntry, Option.some.injEq, Prod.mk.injEq] at h
        obtain ⟨rfl, rfl, rfl, rfl⟩ := h
        refine ⟨off + (writeEntry x).length, ?_⟩
        have hx : entryWfb t x = true := by
          simp only [List.all_cons, Bool.and_eq_true] at hes
          exact hes.1
        have hshape : concatMap writeEntry (x :: tl) ++
            writeChangeset ([] : List (ChangesetTable × List ChangesetEntry)) =
            writeEntry x ++ (concatMap writeEntry tl ++ writeChangeset []) := by
          simp [concatMap]
        rw [hshape, nextEntryAux_entry t x hx f off]
  | cons p data3 ih =>
    intro t es oct fuel off hes hdata hct hfuel
    obtain ⟨t3, es3⟩ := p
    cases es with
    | cons x tl =>
      have hoct := hct (by simp)
      subst hoct
      obtain ⟨f, rfl⟩ : ∃ f, fuel = f + 1 := ⟨fuel - 1, by omega⟩
      constructor
      · intro h
        simp [popEntry] at h
      · intro t2 e es2 data2 h
        simp only [popEntry, Option.some.injEq, Prod.mk.injEq] at h
        obtain ⟨rfl, rfl, rfl, rfl⟩ := h
        refine ⟨off + (writeEntry x).length, ?_⟩
        have hx : entryWfb t x = true := by
          simp only [List.all_cons, Bool.and_eq_true] at hes
          exact hes.1
        have hshape : concatMap writeEntry (x :: tl) ++
            writeChangeset ((t3, es3) :: data3) =
            writeEntry x ++
              (concatMap writeEntry tl ++ writeChangeset ((t3, es3) :: data3)) := by
          simp [concatMap]
        rw [hshape, nextEntryAux_entry t x hx f off]
    | nil =>
      simp only [changesetWfb, Bool.and_eq_true] at hdata
      obtain ⟨⟨hwfT, hes3⟩, hdata3⟩ := hdata
      obtain ⟨f, rfl⟩ : ∃ f, fuel = f + 1 := ⟨fuel - 1, by omega⟩
      have hshape : concatMap writeEntry ([] : List ChangesetEntry) ++
          writeChangeset ((t3, es3) :: data3) =
          beginTable t3 ++
            (concatMap writeEntry es3 ++ writeChangeset data3) := by
        simp [concatMap, writeChangeset]
      have hstep := nextEntryAux_table t3 hwfT f off oct
        (concatMap writeEntry es3 ++ writeChangeset data3)
      have hfuel3 : data3.length < f := by
        simp only [List.length_cons] at hfuel
        omega
      have hih := ih t3 es3 (some t3) f (off + (beginTable t3).length)
        hes3 hdata3 (fun _ => rfl) hfuel3
      constructor
      · intro hpop
        have hpop2 : popEntry t3 es3 data3 = none := by
          simpa [popEntry] using hpop
        rw [hshape, hstep]
        exact hih.1 hpop2
      · intro t2 e es2 data2 hpop
        have hpop2 : popEntry t3 es3 data3 = some (t2, e, es2, data2) := by
          simpa [popEntry] using hpop
        obtain ⟨off2, hoo⟩ := hih.2 t2 e es2 data2 hpop2
        refine ⟨off2, ?_⟩
        rw [hshape, hstep]
        exact hoo

lemma writeChangeset_len_ge (data : List (ChangesetTable × List ChangesetEntry)) :
    data.length ≤ (writeChangeset data).length := by
  induction data with
  | nil => simp [writeChangeset, concatMap]
  | cons p data2 ih =>
    obtain ⟨t, es⟩ := p
    have hb : 1 ≤ (beginTable t).length := by
      rw [beginTable_eq]
      simp
    simp only [writeChangeset, concatMap, List.length_append,
      List.length_cons] at ih ⊢
    omega

lemma concatMap_writeEntry_len_ge (es : List ChangesetEntry) :
    es.length ≤ (concatMap writeEntry es).length := by
  induction es with
  | nil => simp [concatMap]
  | cons e tl ih =>
    have h1 : 1 ≤ (writeEntry e).length := by
      simp only [writeEntry, List.length_cons]
      omega
    simp only [concatMap, List.length_append, List.length_cons]
    omega

lemma totalEntries_le (data : List (ChangesetTable × List ChangesetEntry)) :
    totalEntries data ≤ (writeChangeset data).length := by
  induction data with
  | nil => simp [totalEntries, writeChangeset, concatMap]
  | cons p data2 ih =>
    obtain ⟨t, es⟩ := p
    have h1 := concatMap_writeEntry_len_ge es
    simp only [totalEntries, writeChangeset, concatMap,
      List.length_append] at ih ⊢
    omega

lemma readAllAux_mid (fuel : Nat) : ∀ t es data oct off,
    es.all (entryWfb t) = true → changesetWfb data = true →
    (es ≠ [] → oct = some t) →
    es.length + totalEntries data < fuel →
    readAllAux fuel ⟨⟨concatMap writeEntry es ++ writeChangeset data, off⟩, oct⟩ =
      .ok (es.map (fun e => { e with table := some t })
        ++ expectedEntries data) := by
  induction fuel with
  | zero =>
    intro t es data oct off _ _ _ h
    omega
  | succ f ih =>
    intro t es data oct off hes hdata hct hcount
    have hlenb : data.length <
        (concatMap writeEntry es ++ writeChangeset data).length + 1 := by
      have h1 := writeChangeset_len_ge data
      simp only [List.length_append]
      omega
    have hmid := nextEntryAux_mid data t es oct
      ((concatMap writeEntry es ++ writeChangeset data).length + 1) off
      hes hdata hct hlenb
    show readAllAux (f + 1)
        ⟨⟨concatMap writeEntry es ++ writeChangeset data, off⟩, oct⟩ = _
    unfold readAllAux
    cases hpop : popEntry t es data with
    | none =>
      have h0 := hmid.1 hpop
      obtain ⟨hesnil, hexp⟩ := popEntry_none data t es hpop
      simp only [nextEntry]
      rw [h0, hexp]
    | some q =>
      obtain ⟨t2, e, es2, data2⟩ := q
      obtain ⟨off2, hoo⟩ := hmid.2 t2 e es2 data2 hpop
      obtain ⟨hmap, hcount2⟩ := popEntry_some data t es t2 e es2 data2 hpop
      obtain ⟨hwe, hes2, hdata2⟩ := popEntry_wf data t es t2 e es2 data2
        hes hdata hpop
      have hih := ih t2 es2 data2 (some t2) off2 hes2 hdata2
        (fun _ => rfl) (by omega)
      simp only [nextEntry]
      rw [hoo]
      simp only [hih, hmap]

lemma readChangeset_writeChangeset
    (data : List (ChangesetTable × List ChangesetEntry))
    (h : changesetWfb data = true) :
    readChangeset (writeChangeset data) = .ok (expectedEntries data) := by
  unfold readChangeset
  have hx := readAllAux_mid ((writeChangeset data).length + 1)
    ⟨[], []⟩ [] data none 0 (by simp) h
    (fun hc => absurd rfl hc)
    (by
      have h1 := totalEntries_le data
      simp only [List.length_nil]
      omega)
  simpa [concatMap] using hx

lemma nextEntryAux_entry_shape (fuel : Nat) : ∀ r e r',
    nextEntryAux fuel r = .ok (some (e, r')) →
    ∃ tbl, e.table = some tbl ∧ r'.currentTable = some tbl ∧
      ((e.op = .OpInsert → e.oldValues = [] ∧
          e.newValues.length = tbl.primaryKeys.length) ∧
       (e.op = .OpDelete → e.newValues = [] ∧
          e.oldValues.length = tbl.primaryKeys.length) ∧
       (e.op = .OpUpdate → e.oldValues.length = tbl.primaryKeys.length ∧
          e.newValues.length = tbl.primaryKeys.length)) := by
  induction fuel with
  | zero =>
    intro r e r' h
    simp [nextEntryAux] at h
  | succ f ih =>
    intro r e r' h
    obtain ⟨⟨rest, off⟩, ct⟩ := r
    cases rest with
    | nil => simp [nextEntryAux] at h
    | cons b bs =>
      simp only [nextEntryAux, readByte] at h
      split at h
      · split at h
        · simp at h
        · exact ih _ e r' h
      · split at h
        · simp at h
        · rename_i op hop
          split at h
          · simp at h
          · rename_i tbl
            split at h
            · simp at h
            · rename_i p hrb
              split at h
              · rename_i hins
                split at h
                · simp at h
                · rename_i q hrr
                  simp only [Except.ok.injEq, Option.some.injEq,
                    Prod.mk.injEq] at h
                  obtain ⟨he, hr⟩ := h
                  subst he
                  subst hr
                  refine ⟨tbl, rfl, rfl, ?_⟩
                  refine ⟨fun _ => ⟨rfl, ?_⟩, fun hc => by simp at hc,
                    fun hc => by simp at hc⟩
                  exact readRowValues_length tbl.primaryKeys.length _ _ _ hrr
              · rename_i hdel
                split at h
                · simp at h
                · rename_i q hrr
                  simp only [Except.ok.injEq, Option.some.injEq,
                    Prod.mk.injEq] at h
                  obtain ⟨he, hr⟩ := h
                  subst he
                  subst hr
                  refine ⟨tbl, rfl, rfl, ?_⟩
                  refine ⟨fun hc => by simp at hc, fun _ => ⟨rfl, ?_⟩,
                    fun hc => by simp at hc⟩
                  exact readRowValues_length tbl.primaryKeys.length _ _ _ hrr
              · rename_i hupd
                split at h
                · simp at h
                · rename_i q1 hrr1
                  split at h
                  · simp at h
                  · rename_i q2 hrr2
                    simp only [Except.ok.injEq, Option.some.injEq,
                      Prod.mk.injEq] at h
                    obtain ⟨he, hr⟩ := h
                    subst he
                    subst hr
                    refine ⟨tbl, rfl, rfl, ?_⟩
                    refine ⟨fun hc => by simp at hc, fun hc => by simp at hc,
                      fun _ => ⟨?_, ?_⟩⟩
                    · exact readRowValues_length tbl.primaryKeys.length _ _ _ hrr1
                    · exact readRowValues_length tbl.primaryKeys.length _ _ _ hrr2

lemma readByte_error_msg (s : RState) (e : ParseErr)
    (h : readByte s = .error e) :
    e.message = "truncated: unexpected end of buffer" := by
  unfold readByte at h
  split at h
  · cases h
    rfl
  · simp at h

lemma readVarintAux_error_msg (fuel : Nat) : ∀ acc s e,
    readVarintAux fuel acc s = .error e →
    e.message = "varint too long" ∨
      e.message = "truncated: unexpected end of buffer" := by
  induction fuel with
  | zero =>
    intro acc s e h
    simp only [readVarintAux] at h
    cases h
    left
    rfl
  | succ f ih =>
    intro acc s e h
    simp only [readVarintAux] at h
    split at h
    · rename_i e2 hb
      cases h
      right
      exact readByte_error_msg s _ hb
    · split at h
      · simp at h
      · exact ih _ _ e h

lemma readBytesN_error_msg (n : Nat) : ∀ s e,
    readBytesN n s = .error e →
    e.message = "truncated: unexpected end of buffer" := by
  induction n with
  | zero =>
    intro s e h
    simp [readBytesN] at h
  | succ m ih =>
    intro s e h
    simp only [readBytesN] at h
    split at h
    · rename_i e2 hb
      cases h
      exact readByte_error_msg s _ hb
    · rename_i p hb
      split at h
      · rename_i e2 hr
        cases h
        exact ih _ _ hr
      · simp at h

lemma readValue_unknown_tag (b : Nat) (hb : 5 < b) (bs : List Nat) (off : Nat) :
    readValue ⟨b :: bs, off⟩ = .error ⟨"unknown value tag", off⟩ := by
  unfold readValue
  simp only [readByte]
  rw [if_neg (by omega), if_neg (by omega), if_neg (by omega),
    if_neg (by omega), if_neg (by omega), if_neg (by omega)]

lemma readValue_known_tag (b : Nat) (hb : b ≤ 5) : ∀ bs off e,
    readValue ⟨b :: bs, off⟩ = .error e →
    e.message ≠ "unknown value tag" := by
  intro bs off e h
  unfold readValue at h
  simp only [readByte] at h
  interval_cases b
  · simp at h
  · norm_num at h
    split at h
    · rename_i e2 hr
      cases h
      rw [readBytesN_error_msg 8 _ _ hr]
      decide
    · simp at h
  · norm_num at h
    split at h
    · rename_i e2 hr
      cases h
      rw [readBytesN_error_msg 8 _ _ hr]
      decide
    · simp at h
  · norm_num at h
    split at h
    · rename_i e2 hr
      cases h
      rcases readVarintAux_error_msg 5 _ _ _ hr with hm | hm <;>
        · rw [hm]
          decide
    · rename_i p hr
      split at h
      · rename_i e2 hr2
        cases h
        rw [readBytesN_error_msg _ _ _ hr2]
        decide
      · simp at h
  · simp at h
    split at h
    · rename_i e2 hr
      cases h
      rcases readVarintAux_error_msg 5 _ _ _ hr with hm | hm <;>
        · rw [hm]
          decide
    · rename_i p hr
      split at h
      · rename_i e2 hr2
        cases h
        rw [readBytesN_error_msg _ _ _ hr2]
        decide
      · simp at h
  · simp at h

lemma nextEntry_unknown_tag (t : ChangesetTable) (b : Nat) (hb : 5 < b)
    (hc : 0 < t.primaryKeys.length) (bs : List Nat) (off : Nat) :
    nextEntry ⟨⟨18 :: 0 :: b :: bs, off⟩, some t⟩ =
      .error ⟨"unknown value tag", off + 2⟩ := by
  unfold nextEntry
  simp only [nextEntryAux, readByte, opOfByte]
  norm_num
  obtain ⟨m, hm⟩ : ∃ m, t.primaryKeys.length = m + 1 :=
    ⟨t.primaryKeys.length - 1, by omega⟩
  rw [hm]
  simp only [readRowValues, readValue_unknown_tag b hb bs (off + 2)]

lemma nextEntry_empty (off : Nat) (ct : Option ChangesetTable) :
    nextEntry ⟨⟨[], off⟩, ct⟩ = .ok none := by
  unfold nextEntry
  simp [nextEntryAux]

lemma nextEntry_table_only (t : ChangesetTable) (hwf : tableWfb t = true)
    (off : Nat) (ct : Option ChangesetTable) :
    nextEntry ⟨⟨beginTable t, off⟩, ct⟩ = .ok none := by
  unfold nextEntry
  have hb : 1 ≤ (beginTable t).length := by
    rw [beginTable_eq]
    simp
  obtain ⟨f, hf⟩ : ∃ f, (beginTable t).length = f + 1 :=
    ⟨(beginTable t).length - 1, by omega⟩
  have hsh : beginTable t = beginTable t ++ [] := by simp
  calc nextEntryAux ((beginTable t).length + 1) ⟨⟨beginTable t, off⟩, ct⟩
      = nextEntryAux ((beginTable t).length + 1)
          ⟨⟨beginTable t ++ [], off⟩, ct⟩ := by rw [← hsh]
    _ = nextEntryAux (beginTable t).length
          ⟨⟨[], off + (beginTable t).length⟩, some t⟩ :=
        nextEntryAux_table t hwf (beginTable t).length off ct []
    _ = .ok none := by
        rw [hf]
        exact nextEntryAux_nil f _ (some t)

lemma nextEntry_row_before_table (b : Nat) (hb : b = 9 ∨ b = 18 ∨ b = 23)
    (bs : List Nat) (off : Nat) :
    nextEntry ⟨⟨b :: bs, off⟩, none⟩ =
      .error ⟨"row record before first table", off⟩ := by
  unfold nextEntry
  rcases hb with rfl | rfl | rfl <;>
    · simp only [nextEntryAux, readByte, opOfByte]
      norm_num

lemma nextEntry_single (t : ChangesetTable) (e : ChangesetEntry)
    (hwt : tableWfb t = true) (hwe : entryWfb t e = true) :
    nextEntry ⟨⟨beginTable t ++ writeEntry e, 0⟩, none⟩ =
      .ok (some ({ e with table := some t },
        ⟨⟨[], (beginTable t).length + (writeEntry e).length⟩, some t⟩)) := by
  unfold nextEntry
  have hle : 1 ≤ (writeEntry e).length := by
    simp only [writeEntry, List.length_cons]
    omega
  obtain ⟨f, hf⟩ : ∃ f, (writeEntry e).length = f + 1 :=
    ⟨(writeEntry e).length - 1, by omega⟩
  have hlen : (⟨⟨beginTable t ++ writeEntry e, 0⟩, none⟩ : Reader).st.rest.length =
      (beginTable t).length + (writeEntry e).length := by
    simp
  rw [hlen]
  have h1 : (beginTable t).length + (writeEntry e).length + 1 =
      ((beginTable t).length + f + 1) + 1 := by omega
  rw [h1]
  have h2 := nextEntryAux_table t hwt ((beginTable t).length + f + 1) 0 none
    (writeEntry e)
  rw [h2]
  have h3 : (beginTable t).length + f + 1 = (beginTable t).length + f + 1 := rfl
  have hsh : writeEntry e = writeEntry e ++ [] := by simp
  calc nextEntryAux ((beginTable t).length + f + 1)
        ⟨⟨writeEntry e, 0 + (beginTable t).length⟩, some t⟩
      = nextEntryAux (((beginTable t).length + f) + 1)
          ⟨⟨writeEntry e ++ [], 0 + (beginTable t).length⟩, some t⟩ := by
        rw [← hsh]
    _ = .ok (some ({ e with table := some t },
          ⟨⟨[], 0 + (beginTable t).length + (writeEntry e).length⟩, some t⟩)) :=
        nextEntryAux_entry t e hwe ((beginTable t).length + f)
          (0 + (beginTable t).length) []
    _ = .ok (some ({ e with table := some t },
          ⟨⟨[], (beginTable t).length + (writeEntry e).length⟩, some t⟩)) := by
        norm_num

lemma update_zip_pk_defined (ps : List Bool) : ∀ (os ns : List Value),
    os.length = ps.length → ns.length = ps.length →
    (ps.zip (os.zip ns)).all
      (fun pon => pon.2.1.isDefined == (pon.1 || pon.2.2.isDefined)) = true →
    (ps.zip os).all (fun pv => !pv.1 || pv.2.isDefined) = true := by
  induction ps with
  | nil =>
    intro os ns _ _ _
    simp
  | cons p pt ih =>
    intro os ns hlo hln hall
    cases os with
    | nil => simp at hlo
    | cons o ot =>
      cases ns with
      | nil => simp at hln
      | cons n nt =>
        simp only [List.zip_cons_cons, List.all_cons, Bool.and_eq_true] at hall ⊢
        refine ⟨?_, ih ot nt (by simpa using hlo) (by simpa using hln) hall.2⟩
        have h := hall.1
        cases p <;> cases ho : o.isDefined <;> simp_all

/-- C1: for every sequence of tables and entries satisfying the
per-operation invariants of spec section 3.3 (together with the data-model
well-formedness of sections 3.1 and 3.2), writing it with the changeset
writer (`beginTable`, then `writeEntry` per change) and reading the produced
byte stream back with the reader (`nextEntry` until the clean end) yields a
sequence of entries structurally equal to the input: same operations in the
same order, same `Value` tags and byte-exact payloads; `Value` is a sum
type, so the equality keeps the undefined tag distinct from null. -/
theorem geodiff_changeset_roundtrip
    (data : List (ChangesetTable × List ChangesetEntry))
    (h : changesetWfb data = true) :
    readChangeset (writeChangeset data) = .ok (expectedEntries data) :=
  readChangeset_writeChangeset data h

/-- Instance of the round-trip at spec scenario S1: one table with an
integer primary-key column and a text column, one insert entry. -/
theorem geodiff_changeset_roundtrip_witness :
    changesetWfb [(⟨[116], [true, false]⟩,
      [⟨.OpInsert, [], [.int 7, .text [97, 108, 105, 99, 101]], none⟩])] = true ∧
    readChangeset (writeChangeset [(⟨[116], [true, false]⟩,
      [⟨.OpInsert, [], [.int 7, .text [97, 108, 105, 99, 101]], none⟩])]) =
      .ok (expectedEntries [(⟨[116], [true, false]⟩,
        [⟨.OpInsert, [], [.int 7, .text [97, 108, 105, 99, 101]], none⟩])]) :=
  ⟨by decide, geodiff_changeset_roundtrip _ (by decide)⟩

/-- C2: for every `n < 2 ^ 31`, `readVarint` applied to the bytes produced
by `writeVarint n` (followed by anything) consumes exactly those bytes and
yields `n`; the produced bytes are themselves a complete varint encoding of
`n`; and among all complete varint encodings of `n` the produced one has
minimal length and is the only one of that length, i.e. it is the unique
minimal big-endian base-128 MSB-continuation form. -/
theorem geodiff_varint_roundtrip_minimal (n : Nat) (h : n < 2 ^ 31) :
    (∀ rest off, readVarint ⟨writeVarint n ++ rest, off⟩ =
        .ok (n, ⟨rest, off + (writeVarint n).length⟩)) ∧
    isVarintEnc (writeVarint n) n ∧
    (∀ l, isVarintEnc l n → (writeVarint n).length ≤ l.length ∧
      (l.length ≤ (writeVarint n).length → l = writeVarint n)) := by
  have h35 : n < 2 ^ 35 := by omega
  exact ⟨readVarint_writeVarint n h35, writeVarint_isVarintEnc n h35,
    fun l hl => isVarintEnc_minimal n l hl⟩

/-- Instance of the varint round-trip at `n = 300` with a nonempty tail and
a nonzero offset. -/
theorem geodiff_varint_roundtrip_minimal_witness :
    (300 : Nat) < 2 ^ 31 ∧
    readVarint ⟨writeVarint 300 ++ [7], 5⟩ =
      .ok (300, ⟨[7], 5 + (writeVarint 300).length⟩) :=
  ⟨by decide, (geodiff_varint_roundtrip_minimal 300 (by decide)).1 [7] 5⟩

/-- C3: every entry yielded by a successful `nextEntry` call references the
reader's current table, and its value arrays obey the length rule of that
table: an insert has empty old values and new values of the column count, a
delete has empty new values and old values of the column count, and an
update has both arrays of the column count (so each array's length is 0 or
exactly the column count, matching the operation). -/
theorem geodiff_entry_lengths (r : Reader) (e : ChangesetEntry) (r' : Reader)
    (h : nextEntry r = .ok (some (e, r'))) :
    ∃ tbl, e.table = some tbl ∧ r'.currentTable = some tbl ∧
      ((e.op = .OpInsert → e.oldValues = [] ∧
          e.newValues.length = tbl.primaryKeys.length) ∧
       (e.op = .OpDelete → e.newValues = [] ∧
          e.oldValues.length = tbl.primaryKeys.length) ∧
       (e.op = .OpUpdate → e.oldValues.length = tbl.primaryKeys.length ∧
          e.newValues.length = tbl.primaryKeys.length)) :=
  nextEntryAux_entry_shape _ r e r' h

set_option maxRecDepth 10000 in
/-- Instance of the length rule on a concrete insert record. -/
theorem geodiff_entry_lengths_witness :
    ∃ tbl, (⟨.OpInsert, [], [.int 7], some ⟨[116], [true]⟩⟩ :
        ChangesetEntry).table = some tbl ∧
      (⟨⟨[], 16⟩, some ⟨[116], [true]⟩⟩ : Reader).currentTable = some tbl ∧
      (((⟨.OpInsert, [], [.int 7], some ⟨[116], [true]⟩⟩ :
          ChangesetEntry).op = .OpInsert →
        (⟨.OpInsert, [], [.int 7], some ⟨[116], [true]⟩⟩ :
          ChangesetEntry).oldValues = [] ∧
        (⟨.OpInsert, [], [.int 7], some ⟨[116], [true]⟩⟩ :
          ChangesetEntry).newValues.length = tbl.primaryKeys.length) ∧
       ((⟨.OpInsert, [], [.int 7], some ⟨[116], [true]⟩⟩ :
          ChangesetEntry).op = .OpDelete →
        (⟨.OpInsert, [], [.int 7], some ⟨[116], [true]⟩⟩ :
          ChangesetEntry).newValues = [] ∧
        (⟨.OpInsert, [], [.int 7], some ⟨[116], [true]⟩⟩ :
          ChangesetEntry).oldValues.length = tbl.primaryKeys.length) ∧
       ((⟨.OpInsert, [], [.int 7], some ⟨[116], [true]⟩⟩ :
          ChangesetEntry).op = .OpUpdate →
        (⟨.OpInsert, [], [.int 7], some ⟨[116], [true]⟩⟩ :
          ChangesetEntry).oldValues.length = tbl.primaryKeys.length ∧
        (⟨.OpInsert, [], [.int 7], some ⟨[116], [true]⟩⟩ :
          ChangesetEntry).newValues.length = tbl.primaryKeys.length)) :=
  geodiff_entry_lengths
    ⟨⟨[84, 1, 1, 116, 0, 18, 0, 1, 0, 0, 0, 0, 0, 0, 0, 7], 0⟩, none⟩
    ⟨.OpInsert, [], [.int 7], some ⟨[116], [true]⟩⟩
    ⟨⟨[], 16⟩, some ⟨[116], [true]⟩⟩ (by decide)

/-- C4 as stated is false: the reader performs no validation of the
primary-key rule, so a byte stream containing an Update row whose
primary-key column carries the undefined tag in the old values is parsed
successfully.  Concretely, a table with one primary-key column followed by
an update record whose old and new payloads are both a single undefined tag
yields an entry with `primaryKeys = [true]` and `oldValues = [undefined]`. -/
theorem geodiff_update_pk_not_enforced :
    nextEntry ⟨⟨[84, 1, 1, 116, 0, 23, 0, 0, 0], 0⟩, none⟩ =
      .ok (some (⟨.OpUpdate, [.undefined], [.undefined],
          some ⟨[116], [true]⟩⟩,
        ⟨⟨[], 9⟩, some ⟨[116], [true]⟩⟩)) ∧
    (⟨[116], [true]⟩ : ChangesetTable).primaryKeys = [true] ∧
    Value.isDefined .undefined = false := by
  decide

/-- C4 (amended): the reader does not enforce the primary-key rule on
arbitrary streams; what holds is that the rule is preserved through the
codec: for every Update entry satisfying spec section 3.3 that is written
(after its table) and read back, every column marked as primary key in the
table has a defined old value in the yielded entry.  (The claim's clause
about `newValues[i]` — undefined unless the key itself changed — refers to
which columns the producing diff touched, which is not observable in the
codec; its checkable shadow, that a non-key old slot is defined exactly
when the new slot is, is part of the section 3.3 hypothesis.) -/
theorem geodiff_update_pk_defined_after_write (t : ChangesetTable)
    (e : ChangesetEntry) (e2 : ChangesetEntry) (r' : Reader)
    (hwt : tableWfb t = true) (hwe : entryWfb t e = true)
    (hop : e.op = .OpUpdate)
    (h : nextEntry ⟨⟨beginTable t ++ writeEntry e, 0⟩, none⟩ =
      .ok (some (e2, r'))) :
    (t.primaryKeys.zip e2.oldValues).all
      (fun pv => !pv.1 || pv.2.isDefined) = true := by
  rw [nextEntry_single t e hwt hwe] at h
  simp only [Except.ok.injEq, Option.some.injEq, Prod.mk.injEq] at h
  obtain ⟨he2, _⟩ := h
  subst he2
  unfold entryWfb at hwe
  rw [hop] at hwe
  simp only [Bool.and_eq_true, decide_eq_true_eq] at hwe
  exact update_zip_pk_defined t.primaryKeys e.oldValues e.newValues
    hwe.1.1.1.1 hwe.1.1.1.2 hwe.2

set_option maxRecDepth 10000 in
/-- Instance of the amended C4 on a concrete update that changes the key
column. -/
theorem geodiff_update_pk_defined_after_write_witness :
    ((⟨[116], [true]⟩ : ChangesetTable).primaryKeys.zip
      (⟨.OpUpdate, [.int 7], [.int 8],
        some ⟨[116], [true]⟩⟩ : ChangesetEntry).oldValues).all
      (fun pv => !pv.1 || pv.2.isDefined) = true :=
  geodiff_update_pk_defined_after_write ⟨[116], [true]⟩
    ⟨.OpUpdate, [.int 7], [.int 8], none⟩
    ⟨.OpUpdate, [.int 7], [.int 8], some ⟨[116], [true]⟩⟩
    ⟨⟨[], 25⟩, some ⟨[116], [true]⟩⟩
    (by decide) (by decide) rfl (by decide)

/-- C5: when parsing one cell of a row-values payload, any tag byte other
than 0 (undefined), 1 (integer), 2 (double), 3 (text), 4 (blob) and 5
(null) makes the parse fail with a `ParseErr` whose offset is that tag
byte's offset; the accepted tag bytes never produce the unknown-tag error;
and at the `nextEntry` level an insert row whose first cell carries such a
tag byte fails with the unknown-tag error at that byte's offset, producing
no entry (the error constructor of `Except` carries no entry). -/
theorem geodiff_value_tags :
    (∀ b bs off, 5 < b → readValue ⟨b :: bs, off⟩ =
      .error ⟨"unknown value tag", off⟩) ∧
    (∀ b, b ≤ 5 → ∀ bs off e, readValue ⟨b :: bs, off⟩ = .error e →
      e.message ≠ "unknown value tag") ∧
    (∀ t bs off b, 5 < b → 0 < t.primaryKeys.length →
      nextEntry ⟨⟨18 :: 0 :: b :: bs, off⟩, some t⟩ =
        .error ⟨"unknown value tag", off + 2⟩) :=
  ⟨fun b bs off hb => readValue_unknown_tag b hb bs off,
   fun b hb bs off e h => readValue_known_tag b hb bs off e h,
   fun t bs off b hb hc => nextEntry_unknown_tag t b hb hc bs off⟩

/-- Instance of the unknown-tag failure at tag byte 7 (the spec's own
example), both for one cell and through `nextEntry`. -/
theorem geodiff_value_tags_witness :
    readValue ⟨7 :: [], 3⟩ = .error ⟨"unknown value tag", 3⟩ ∧
    nextEntry ⟨⟨[18, 0, 7], 0⟩, some ⟨[116], [true]⟩⟩ =
      .error ⟨"unknown value tag", 2⟩ := by
  constructor
  · exact (geodiff_value_tags).1 7 [] 3 (by decide)
  · have h := (geodiff_value_tags).2.2 ⟨[116], [true]⟩ [] 0 7
      (by decide) (by decide)
    simpa using h

/-- C6: on an empty remaining stream the next `nextEntry` call reports the
clean end of the stream (no error) whatever the reader's state; a stream
holding exactly one table record and no row record does the same on its
first call; and reading the empty changeset yields the empty entry list. -/
theorem geodiff_clean_eof :
    (∀ off ct, nextEntry ⟨⟨[], off⟩, ct⟩ = .ok none) ∧
    (∀ t off ct, tableWfb t = true →
      nextEntry ⟨⟨beginTable t, off⟩, ct⟩ = .ok none) ∧
    readChangeset [] = .ok [] :=
  ⟨nextEntry_empty, fun t off ct h => nextEntry_table_only t h off ct,
   by decide⟩

/-- Instance of the clean end of stream on a one-table stream. -/
theorem geodiff_clean_eof_witness :
    tableWfb ⟨[116], [true]⟩ = true ∧
    nextEntry ⟨⟨beginTable ⟨[116], [true]⟩, 0⟩, none⟩ = .ok none :=
  ⟨by decide, (geodiff_clean_eof).2.1 ⟨[116], [true]⟩ 0 none (by decide)⟩

/-- C7: a row record byte (0x09 delete, 0x12 insert, 0x17 update) at the
head of the stream while no table record has been seen (`currentTable` is
`none`, the AwaitingAnyRecord state) makes `nextEntry` fail with the
row-before-table parse error at that byte's offset; the `Except.error`
result carries no partial entry. -/
theorem geodiff_row_before_table (b : Nat) (bs : List Nat) (off : Nat)
    (hb : b = 9 ∨ b = 18 ∨ b = 23) :
    nextEntry ⟨⟨b :: bs, off⟩, none⟩ =
      .error ⟨"row record before first table", off⟩ :=
  nextEntry_row_before_table b hb bs off

/-- Instance of the row-before-table failure on the spec's S6 stream (the
single byte 0x12). -/
theorem geodiff_row_before_table_witness :
    nextEntry ⟨⟨[18], 0⟩, none⟩ =
      .error ⟨"row record before first table", 0⟩ :=
  geodiff_row_before_table 18 [] 0 (by decide)

/-- C8: the operation codes of `ChangesetEntry.OperationType` are exactly
Insert = 18 (0x12), Update = 23 (0x17) and Delete = 9 (0x09); the reader's
row-record classifier recognizes exactly these three bytes and maps each
code back to its operation; and the writer emits the operation code as the
first byte of every row record. -/
theorem geodiff_opcodes :
    (OperationType.code .OpInsert = 18 ∧ OperationType.code .OpUpdate = 23 ∧
      OperationType.code .OpDelete = 9) ∧
    (∀ op : OperationType, opOfByte op.code = some op) ∧
    (∀ b : Nat, (opOfByte b).isSome = decide (b = 9 ∨ b = 18 ∨ b = 23)) ∧
    (∀ e : ChangesetEntry, (writeEntry e).head? = some e.op.code) := by
  refine ⟨⟨rfl, rfl, rfl⟩, ?_, ?_, ?_⟩
  · intro op
    cases op <;> rfl
  · intro b
    unfold opOfByte
    split_ifs with h1 h2 h3
    · subst h1
      decide
    · subst h2
      decide
    · subst h3
      decide
    · have hnot : ¬(b = 9 ∨ b = 18 ∨ b = 23) := by
        push_neg
        exact ⟨h3, h1, h2⟩
      simp [hnot]
  · intro e
    rfl

/-- C9: each `Value` accessor is guarded by a tag assertion (modelled as
`Option`: `none` is the assertion firing).  When the accessor matches the
current tag the assertion does not fire and the stored payload is returned
unchanged: `getInt` on tag integer yields the stored int64, `getDouble` on
tag double yields the stored bit pattern, `getString` on tag text or blob
yields the stored buffer; on every mismatching tag the assertion fires. -/
theorem geodiff_value_accessors (v : Value) :
    (v.type = 1 → ∃ n, v = .int n ∧ v.getInt = some n) ∧
    (v.type = 2 → ∃ b, v = .double b ∧ v.getDouble = some b) ∧
    (v.type = 3 ∨ v.type = 4 → ∃ s, v.getString = some s ∧
      (v = .text s ∨ v = .blob s)) ∧
    (v.type ≠ 1 → v.getInt = none) ∧
    (v.type ≠ 2 → v.getDouble = none) ∧
    (¬(v.type = 3 ∨ v.type = 4) → v.getString = none) := by
  cases v <;>
    simp [Value.type, Value.getInt, Value.getDouble, Value.getString]

/-- Instance of the accessor contract on an integer-tagged value. -/
theorem geodiff_value_accessors_witness :
    ∃ n, (Value.int 5) = .int n ∧ (Value.int 5).getInt = some n :=
  (geodiff_value_accessors (Value.int 5)).1 rfl

/-- C10: the copy constructor yields a `Value` structurally equal to the
original (same tag, byte-exact payload); for text and blob the buffer is
rebuilt element by element (`copyBytes`, the model of the fresh
`std::string` allocation), and that rebuilt buffer equals the original
byte for byte.  In this pure model the copy shares no mutable state with
the original, so the two are independent. -/
theorem geodiff_value_copy (v : Value) :
    v.copy = v ∧ ∀ s : List Nat, copyBytes s = s := by
  have hcb : ∀ s : List Nat, copyBytes s = s := by
    intro s
    induction s with
    | nil => rfl
    | cons b tl ih => simp [copyBytes, ih]
  refine ⟨?_, hcb⟩
  cases v <;> simp [Value.copy, hcb]
